import Mathlib

/-
  Verification development for the ATS resume application.

  The repository's core logic is embedded shallowly:
  - `analyzeResume`   : the scoring engine (App component, `analyzeResume`).
  - `parseResumeText` : the field extractor (ResumeUploader component).
  - `saveResume`      : the persistence routine (src/lib/supabase.ts), with the
    Supabase store modelled as four in-memory tables and each remote call's
    success or failure supplied by an explicit environment.

  JavaScript strings are modelled as Lean `String`/`List Char`; JavaScript
  string length (UTF-16 units) is modelled as code-point count, which agrees on
  the ASCII inputs the heuristics target.  Regular expressions from the source
  are translated into explicit scanning functions with the same greedy and
  leftmost-match behaviour; each such function is documented with the regex it
  embeds.
-/

namespace ATS

/-! ## Character and string utilities -/

/-- Whitespace as matched by JavaScript regular-expression class and by
`String.prototype.trim`: space, tab, line feed, carriage return, vertical tab,
form feed, and no-break space. -/
def isSpaceJS (c : Char) : Bool :=
  c = ' ' || c = '\t' || c = '\n' || c = '\x0d' || c = '\x0b' || c = '\x0c' || c = ' '

/-- ASCII uppercase letter, the character class written as A-Z in the source. -/
def isUpperA (c : Char) : Bool := 'A' ≤ c && c ≤ 'Z'

/-- The class written A-Z in the source's section regexes as those regexes
actually match: under their case-insensitive flag the class matches both
uppercase and lowercase ASCII letters. -/
def isAZci (c : Char) : Bool := isUpperA c || ('a' ≤ c && c ≤ 'z')

/-- ASCII lowercase mapping matching what toLowerCase does on ASCII data. -/
def toLowerL (l : List Char) : List Char := l.map Char.toLower

/-- Prepend a character to the head list of a list of lists; used by the
splitting helpers. -/
def consHead (c : Char) : List (List Char) → List (List Char)
  | [] => [[c]]
  | h :: t => (c :: h) :: t

/-- Split on line feed characters only; models splitting on the regex class
in contexts where only a line feed acts as the separator. -/
def splitNL : List Char → List (List Char)
  | [] => [[]]
  | c :: rest => if c = '\n' then [] :: splitNL rest else consHead c (splitNL rest)

/-- Model of text.split on a newline alternation: a line feed separates, and a
carriage return immediately followed by a line feed also separates as one
two-character terminator (the second regex alternative fires at the carriage
return). A lone carriage return stays inside its line. -/
def splitLinesJS : List Char → List (List Char)
  | [] => [[]]
  | '\n' :: rest => [] :: splitLinesJS rest
  | '\x0d' :: '\n' :: rest2 => [] :: splitLinesJS rest2
  | c :: rest => consHead c (splitLinesJS rest)

/-- Greedy run: the longest prefix satisfying the predicate together with the
remaining characters; models a greedy character-class repetition. -/
def spanChar (p : Char → Bool) : List Char → List Char × List Char
  | [] => ([], [])
  | c :: rest =>
    if p c then
      let s := spanChar p rest
      (c :: s.1, s.2)
    else ([], c :: rest)

/-- Model of String.prototype.trim: drop JS whitespace from both ends. -/
def trimL (l : List Char) : List Char :=
  ((l.dropWhile isSpaceJS).reverse.dropWhile isSpaceJS).reverse

/-- Case-insensitive literal-prefix test against the start of a list. -/
def ciStartsWith (pat : String) (l : List Char) : Bool :=
  toLowerL pat.data == toLowerL (l.take pat.data.length) && pat.data.length ≤ l.length

/-- Substring test: does the needle occur contiguously in the haystack?
Models String.prototype.includes. -/
def containsSub (hay needle : List Char) : Bool :=
  match hay with
  | [] => needle.isEmpty
  | _ :: rest => needle.isPrefixOf hay || containsSub rest needle

/-- Split a character list on commas and semicolons; models splitting on the
regex class of the two separator characters. -/
def splitCommaSemi : List Char → List (List Char)
  | [] => [[]]
  | c :: rest =>
    if c = ',' || c = ';' then [] :: splitCommaSemi rest
    else consHead c (splitCommaSemi rest)

/-! ## Data model (src/types.ts) -/

structure Experience where
  company : String
  position : String
  startDate : Option String := none
  endDate : Option String := none
  description : Option String := none
  achievements : Option (List String) := none
deriving DecidableEq

structure Education where
  institution : String
  degree : String
  fieldOfStudy : Option String := none
  startDate : Option String := none
  endDate : Option String := none
  description : Option String := none
deriving DecidableEq

structure Certification where
  name : String
  issuer : Option String := none
  date : Option String := none
  description : Option String := none
deriving DecidableEq

structure Project where
  name : String
  description : Option String := none
  technologies : Option (List String) := none
  link : Option String := none
deriving DecidableEq

/-- The Resume interface: optional fields are `Option`, distinguishing a field
that is absent (undefined in the source) from one holding an empty value. -/
structure Resume where
  id : Option String := none
  name : String
  email : Option String := none
  phone : Option String := none
  location : Option String := none
  linkedin : Option String := none
  website : Option String := none
  summary : Option String := none
  skills : Option (List String) := none
  experience : Option (List Experience) := none
  education : Option (List Education) := none
  certifications : Option (List Certification) := none
  projects : Option (List Project) := none
deriving DecidableEq

structure AnalysisResult where
  score : Int
  strengths : List String
  improvements : List String
deriving DecidableEq

/-- JavaScript truthiness of an optional string: present and non-empty. -/
def truthyS : Option String → Bool
  | none => false
  | some s => !s.isEmpty

/-! ## JSON serialization (model of JSON.stringify on a Resume)

Fields holding undefined are omitted, as JSON.stringify does.  Property order
follows the interface declaration in src/types.ts; the keyword rule below only
tests substring membership of all-letter words inside quoted tokens, so any
construction order of the object yields the same rule outcome. -/

def hexDigitChar (n : Nat) : Char :=
  if n < 10 then Char.ofNat (48 + n) else Char.ofNat (97 + (n - 10))

def jsonEscapeChar (c : Char) : List Char :=
  if c = '"' then ['\\', '"']
  else if c = '\\' then ['\\', '\\']
  else if c = '\n' then ['\\', 'n']
  else if c = '\x0d' then ['\\', 'r']
  else if c = '\t' then ['\\', 't']
  else if c = '\x08' then ['\\', 'b']
  else if c = '\x0c' then ['\\', 'f']
  else if c.toNat < 32 then
    ['\\', 'u', '0', '0', hexDigitChar (c.toNat / 16), hexDigitChar (c.toNat % 16)]
  else [c]

def jsonQuoteL (l : List Char) : List Char :=
  '"' :: (l.map jsonEscapeChar).flatten ++ ['"']

def jsonQuote (s : String) : List Char := jsonQuoteL s.data

def lbChar : Char := Char.ofNat 123

def rbChar : Char := Char.ofNat 125

def commaJoin : List (List Char) → List Char
  | [] => []
  | [x] => x
  | x :: y :: rest => x ++ ',' :: commaJoin (y :: rest)

def jsonObjOf (fields : List (Option (List Char))) : List Char :=
  lbChar :: commaJoin (fields.filterMap id) ++ [rbChar]

def jsonArrOf (elems : List (List Char)) : List Char :=
  '[' :: commaJoin elems ++ [']']

def jsonFieldReq (key : String) (v : List Char) : Option (List Char) :=
  some (jsonQuote key ++ ':' :: v)

def jsonFieldStr (key : String) (v : Option String) : Option (List Char) :=
  v.map (fun s => jsonQuote key ++ ':' :: jsonQuote s)

def jsonFieldStrArr (key : String) (v : Option (List String)) : Option (List Char) :=
  v.map (fun l => jsonQuote key ++ ':' :: jsonArrOf (l.map jsonQuote))

def jsonFieldArr (key : String) (ser : α → List Char) (v : Option (List α)) :
    Option (List Char) :=
  v.map (fun l => jsonQuote key ++ ':' :: jsonArrOf (l.map ser))

def serializeExperience (e : Experience) : List Char :=
  jsonObjOf
    [jsonFieldReq "company" (jsonQuote e.company),
     jsonFieldReq "position" (jsonQuote e.position),
     jsonFieldStr "startDate" e.startDate,
     jsonFieldStr "endDate" e.endDate,
     jsonFieldStr "description" e.description,
     jsonFieldStrArr "achievements" e.achievements]

def serializeEducation (e : Education) : List Char :=
  jsonObjOf
    [jsonFieldReq "institution" (jsonQuote e.institution),
     jsonFieldReq "degree" (jsonQuote e.degree),
     jsonFieldStr "fieldOfStudy" e.fieldOfStudy,
     jsonFieldStr "startDate" e.startDate,
     jsonFieldStr "endDate" e.endDate,
     jsonFieldStr "description" e.description]

def serializeCertification (c : Certification) : List Char :=
  jsonObjOf
    [jsonFieldReq "name" (jsonQuote c.name),
     jsonFieldStr "issuer" c.issuer,
     jsonFieldStr "date" c.date,
     jsonFieldStr "description" c.description]

def serializeProject (p : Project) : List Char :=
  jsonObjOf
    [jsonFieldReq "name" (jsonQuote p.name),
     jsonFieldStr "description" p.description,
     jsonFieldStrArr "technologies" p.technologies,
     jsonFieldStr "link" p.link]

def serializeResume (r : Resume) : List Char :=
  jsonObjOf
    [jsonFieldStr "id" r.id,
     jsonFieldReq "name" (jsonQuote r.name),
     jsonFieldStr "email" r.email,
     jsonFieldStr "phone" r.phone,
     jsonFieldStr "location" r.location,
     jsonFieldStr "linkedin" r.linkedin,
     jsonFieldStr "website" r.website,
     jsonFieldStr "summary" r.summary,
     jsonFieldStrArr "skills" r.skills,
     jsonFieldArr "experience" serializeExperience r.experience,
     jsonFieldArr "education" serializeEducation r.education,
     jsonFieldArr "certifications" serializeCertification r.certifications,
     jsonFieldArr "projects" serializeProject r.projects]

/-! ## Scoring engine (App component, analyzeResume) -/

/-- Matcher, at a fixed position, for the achievement regex alternation:
one or more digits then a percent sign; one or more digits, whitespace, then
the word years; a dollar sign then digits; or one of five verbs — all
case-insensitive. -/
def matchAchievementAt (l : List Char) : Bool :=
  (let ds := spanChar Char.isDigit l
   !ds.1.isEmpty &&
     (match ds.2 with
      | '%' :: _ => true
      | r =>
        let sp := spanChar isSpaceJS r
        !sp.1.isEmpty && ciStartsWith "years" sp.2))
  || (match l with
      | '$' :: r => !(spanChar Char.isDigit r).1.isEmpty
      | _ => false)
  || ciStartsWith "increased" l || ciStartsWith "decreased" l
  || ciStartsWith "improved" l || ciStartsWith "reduced" l
  || ciStartsWith "achieved" l

/-- Existence test of the achievement regex anywhere in the text (the test
method of the regex): some suffix matches at its start. -/
def testAchievement : List Char → Bool
  | [] => false
  | c :: rest => matchAchievementAt (c :: rest) || testAchievement rest

/-- Rule 1 condition: email and phone both truthy. -/
def condContact (r : Resume) : Bool := truthyS r.email && truthyS r.phone

/-- Rule 2 condition: summary truthy and longer than 50 characters. -/
def condSummary (r : Resume) : Bool :=
  match r.summary with
  | none => false
  | some s => !s.isEmpty && decide (s.length > 50)

/-- Rule 3 condition: skills array present with at least 5 entries. -/
def condSkills (r : Resume) : Bool :=
  match r.skills with
  | none => false
  | some l => decide (l.length ≥ 5)

/-- Rule 4 condition: experience array present with at least 2 entries. -/
def condExperience (r : Resume) : Bool :=
  match r.experience with
  | none => false
  | some l => decide (l.length ≥ 2)

/-- Rule 5 inner loop: some experience entry has a truthy description matching
the achievement regex (the for loop with break). -/
def hasQuantifiable (r : Resume) : Bool :=
  (r.experience.getD []).any fun e =>
    truthyS e.description && testAchievement (e.description.getD "").data

/-- Rule 6 condition: education array present and non-empty. -/
def condEducation (r : Resume) : Bool :=
  match r.education with
  | none => false
  | some l => decide (l.length > 0)

def commonKeywords : List String :=
  ["managed", "developed", "created", "implemented", "led", "coordinated",
   "analyzed", "designed", "improved", "increased", "reduced", "achieved"]

/-- The lowercased serialized resume text scanned by the keyword rule. -/
def resumeContentLower (r : Resume) : List Char := toLowerL (serializeResume r)

/-- The keywords of the fixed list found in the serialized resume. -/
def keywordsFound (r : Resume) : List String :=
  commonKeywords.filter fun k => containsSub (resumeContentLower r) k.data

/-- Rule 7 condition: at least 5 keywords found. -/
def condKeywords (r : Resume) : Bool := decide ((keywordsFound r).length ≥ 5)

/-- Rule 8 condition: certifications array present and non-empty. -/
def condCertifications (r : Resume) : Bool :=
  match r.certifications with
  | none => false
  | some l => decide (l.length > 0)

def contactStrengthText : String := "Complete contact information provided"
def contactImprovementText : String := "Add complete contact information (email and phone)"
def summaryStrengthText : String := "Strong professional summary included"
def summaryImprovementText : String := "Add a compelling professional summary (50+ characters)"
def skillsStrengthText : String := "Good range of skills listed"
def skillsImprovementText : String := "List at least 5 relevant skills"
def quantStrengthText : String := "Experience includes quantifiable achievements"
def quantImprovementText : String := "Add quantifiable achievements to work experience (e.g., percentages, numbers)"
def experienceImprovementText : String := "Include at least 2 relevant work experiences"
def educationStrengthText : String := "Education details included"
def educationImprovementText : String := "Add education details"
def keywordStrengthText : String := "Good use of action verbs and keywords"
def keywordImprovementText : String := "Use more action verbs and industry keywords"
def certStrengthText : String := "Certifications or additional qualifications included"
def certImprovementText : String := "Consider adding relevant certifications or additional qualifications"

/-- One plain rule of the source, as its if and else branches read: when the
condition holds, add the points and push the strength; otherwise push the
improvement. -/
def ruleStep (c : Bool) (pts : Int) (stext itext : String) (st : AnalysisResult) :
    AnalysisResult :=
  if c then { st with score := st.score + pts, strengths := st.strengths ++ [stext] }
  else { st with improvements := st.improvements ++ [itext] }

/-- The experience block of the source: 20 points when at least two entries
exist, then the nested quantifiable-achievement check for 10 more, else the
experience improvement. -/
def ruleExperienceStep (c4 q : Bool) (st : AnalysisResult) : AnalysisResult :=
  if c4 then
    let st2 := { st with score := st.score + 20 }
    if q then
      { st2 with score := st2.score + 10, strengths := st2.strengths ++ [quantStrengthText] }
    else { st2 with improvements := st2.improvements ++ [quantImprovementText] }
  else { st with improvements := st.improvements ++ [experienceImprovementText] }

/-- The scoring engine, mirroring the sequential rule evaluation of the
source: each rule adds its points and appends its finding in source order. -/
def analyzeResume (resume : Resume) : AnalysisResult :=
  ruleStep (condCertifications resume) 10 certStrengthText certImprovementText
    (ruleStep (condKeywords resume) 10 keywordStrengthText keywordImprovementText
      (ruleStep (condEducation resume) 10 educationStrengthText educationImprovementText
        (ruleExperienceStep (condExperience resume) (hasQuantifiable resume)
          (ruleStep (condSkills resume) 15 skillsStrengthText skillsImprovementText
            (ruleStep (condSummary resume) 15 summaryStrengthText summaryImprovementText
              (ruleStep (condContact resume) 10 contactStrengthText contactImprovementText
                { score := 0, strengths := [], improvements := [] }))))))

/-! ## Field extractor (ResumeUploader component, parseResumeText)

Each regular expression of the source is embedded as an explicit scanner with
the engine's leftmost-position, greedy-with-backtracking behaviour. -/

/-- Character class of the email local part. -/
def isLocalChar (c : Char) : Bool :=
  c.isAlpha || c.isDigit || c = '.' || c = '_' || c = '%' || c = '+' || c = '-'

/-- Character class of the email domain part. -/
def isDomainChar (c : Char) : Bool := c.isAlpha || c.isDigit || c = '.' || c = '-'

/-- Backtracking search inside the greedy domain run: the latest dot position
(the longest domain, tried first) followed by at least two letters; returns the
domain before the dot and the greedy letter run after it. -/
def emailDomainSplitAux (run : List Char) : Nat → Option (List Char × List Char)
  | 0 => none
  | p + 1 =>
    if run[p + 1]? == some '.'
        && decide (2 ≤ (spanChar Char.isAlpha (run.drop (p + 2))).1.length) then
      some (run.take (p + 1), (spanChar Char.isAlpha (run.drop (p + 2))).1)
    else emailDomainSplitAux run p

/-- Match of the email regex anchored at the start of the list: a non-empty
local-part run, an at sign, then a domain, dot, and 2+ letter top level. -/
def emailMatchAt (l : List Char) : Option (List Char) :=
  if (spanChar isLocalChar l).1.isEmpty then none
  else
    match (spanChar isLocalChar l).2 with
    | '@' :: r2 =>
      match emailDomainSplitAux (spanChar isDomainChar r2).1
          ((spanChar isDomainChar r2).1.length - 1) with
      | none => none
      | some dt => some ((spanChar isLocalChar l).1 ++ '@' :: dt.1 ++ '.' :: dt.2)
    | _ => none

/-- Leftmost scan: the first position at which the positional matcher
succeeds, returning its match. -/
def scanFirst (f : List Char → Option (List Char)) : List Char → Option (List Char)
  | [] => f []
  | c :: rest =>
    match f (c :: rest) with
    | some m => some m
    | none => scanFirst f rest

/-- First match of the email regex in the text. -/
def emailFind (t : List Char) : Option (List Char) := scanFirst emailMatchAt t

/-- Separator class of the phone regex: hyphen, dot, or whitespace. -/
def isSepChar (c : Char) : Bool := c = '-' || c = '.' || isSpaceJS c

/-- Consume exactly n digits. -/
def digitsExact : Nat → List Char → Option (List Char)
  | 0, l => some l
  | _ + 1, [] => none
  | n + 1, c :: rest => if c.isDigit then digitsExact n rest else none

def firstSome (a b : Option (List Char)) : Option (List Char) :=
  match a with
  | some x => some x
  | none => b

/-- Greedy optional single consumption with backtracking into the
continuation: try the consuming branch first, fall back to skipping. -/
def optConsume (step : List Char → Option (List Char))
    (k : List Char → Option (List Char)) (l : List Char) : Option (List Char) :=
  match step l with
  | some l2 => firstSome (k l2) (k l)
  | none => k l

def consumeSep : List Char → Option (List Char)
  | c :: r => if isSepChar c then some r else none
  | [] => none

def consumeLParen : List Char → Option (List Char)
  | '(' :: r => some r
  | _ => none

def consumeRParen : List Char → Option (List Char)
  | ')' :: r => some r
  | _ => none

/-- Country-code group of the phone regex: a plus sign, one to three digits
(greedy), and an optional separator. -/
def phoneGroupA (k : List Char → Option (List Char)) (l : List Char) :
    Option (List Char) :=
  match l with
  | '+' :: r =>
    firstSome ((digitsExact 3 r).bind fun rd => optConsume consumeSep k rd)
      (firstSome ((digitsExact 2 r).bind fun rd => optConsume consumeSep k rd)
        ((digitsExact 1 r).bind fun rd => optConsume consumeSep k rd))
  | _ => none

def phoneGroupAOpt (k : List Char → Option (List Char)) (l : List Char) :
    Option (List Char) :=
  firstSome (phoneGroupA k l) (k l)

/-- Area-code group of the phone regex: optional opening parenthesis, three
digits, optional closing parenthesis, optional separator. -/
def phoneGroupB (k : List Char → Option (List Char)) (l : List Char) :
    Option (List Char) :=
  optConsume consumeLParen
    (fun l1 =>
      (digitsExact 3 l1).bind fun l2 =>
        optConsume consumeRParen (fun l3 => optConsume consumeSep k l3) l2)
    l

def phoneGroupBOpt (k : List Char → Option (List Char)) (l : List Char) :
    Option (List Char) :=
  firstSome (phoneGroupB k l) (k l)

/-- Mandatory tail of the phone regex: three digits, optional separator, four
digits. -/
def phoneTail (l : List Char) : Option (List Char) :=
  (digitsExact 3 l).bind fun r => optConsume consumeSep (digitsExact 4) r

/-- Match of the whole phone regex at the start of the list, returning the
remaining characters after the match. -/
def phoneMatchAt (l : List Char) : Option (List Char) :=
  phoneGroupAOpt (fun l1 => phoneGroupBOpt phoneTail l1) l

/-- Leftmost scan returning the suffix at which the matcher succeeds together
with the matcher's leftover; the match is the difference. -/
def scanFirstRem (f : List Char → Option (List Char)) :
    List Char → Option (List Char × List Char)
  | [] => (f []).map fun r => (([] : List Char), r)
  | c :: rest =>
    match f (c :: rest) with
    | some r => some (c :: rest, r)
    | none => scanFirstRem f rest

/-- First match of the phone regex in the text. -/
def phoneFind (t : List Char) : Option (List Char) :=
  (scanFirstRem phoneMatchAt t).map fun sr => sr.1.take (sr.1.length - sr.2.length)

def unknownNameText : String := "Unknown Name"

/-- Non-blank lines of the input, as the source computes cleanedLines. -/
def cleanedLinesOf (t : String) : List (List Char) :=
  (splitLinesJS t.data).filter fun l => !(trimL l).isEmpty

/-- The extracted name: the first surviving line, with the fixed placeholder
when no line survives (or would be falsy). -/
def nameOf (t : String) : String :=
  let n0 := (cleanedLinesOf t).headD []
  if n0.isEmpty then unknownNameText else String.mk n0

/-- Greedy optional colon after a section header. -/
def dropColon : List Char → List Char
  | ':' :: r => r
  | r => r

/-- Leftmost case-insensitive occurrence of the section keyword anywhere in
the text, returning the characters after the keyword and its optional colon.
The source regex does not anchor the keyword to a line start. -/
def findSection (header : String) : List Char → Option (List Char)
  | [] => none
  | c :: rest =>
    if ciStartsWith header (c :: rest) then
      some (dropColon ((c :: rest).drop header.data.length))
    else findSection header rest

/-- Lazy dot-all capture of the section regex: consume characters until a line
feed followed by another line feed or an ASCII letter — the regex writes the
class as A-Z, but its case-insensitive flag makes the class match lowercase
letters too, so any letter-starting line ends the capture — or until the end
of the text. -/
def captureUntil : List Char → List Char
  | [] => []
  | [c] => [c]
  | c :: c2 :: rest =>
    if c = '\n' && (c2 = '\n' || isAZci c2) then []
    else c :: captureUntil (c2 :: rest)

/-- Skills extraction: capture the section, split on commas and semicolons,
trim, and drop empty pieces. -/
def extractSkills (t : String) : List String :=
  match findSection "skills" t.data with
  | none => []
  | some rest =>
    ((splitCommaSemi (captureUntil rest)).map fun p => String.mk (trimL p)).filter
      fun s => !s.isEmpty

/-- Summary extraction: capture the section and trim it. -/
def extractSummary (t : String) : String :=
  match findSection "summary" t.data with
  | none => ""
  | some rest => String.mk (trimL (captureUntil rest))

/-- Does a line start with an ASCII letter (the source's A-Z class under the
case-insensitive flag)? -/
def startsAZci : List Char → Bool
  | [] => false
  | c :: _ => isAZci c

/-- Modelled from the spec: the section capture as the specification words
it, line by line — keep the first line fragment, then keep appending the
following lines until a blank line or a line starting with a letter, where
the boundary class is amended from the spec's uppercase letter to any ASCII
letter, as the source regex's case-insensitive flag makes it; a final line
break with nothing after it is kept, as the end-of-text alternative allows. -/
def specJoin : List (List Char) → List Char
  | [] => []
  | [seg] => seg
  | seg :: next :: rest =>
    if (next.isEmpty && !rest.isEmpty) || startsAZci next then seg
    else seg ++ '\n' :: specJoin (next :: rest)

/-- Modelled from the spec, amended in two places the counterexample forces:
the keyword is located anywhere rather than line-anchored, and the capture
boundary is a line starting with any ASCII letter rather than an uppercase
one. Locate the case-insensitive keyword skills with its optional colon,
capture line by line up to the next blank line or letter-starting line (or
the end of text), split the capture on commas and semicolons, trim each
piece, drop empty pieces. -/
def skillsSpecList (t : String) : List String :=
  match findSection "skills" t.data with
  | none => []
  | some rest =>
    ((splitCommaSemi (specJoin (splitNL rest))).map fun p => String.mk (trimL p)).filter
      fun s => !s.isEmpty

/-- A line-anchored skills header, as the claim together with the glossary's
definition of a section header requires: some line of the text starts with
the keyword, case-insensitively. -/
def skillsHeaderLineAnchored (t : String) : Bool :=
  (splitNL t.data).any fun line => ciStartsWith "skills" line

/-- The extractor: builds the basic record from the raw text; unmatched
patterns produce empty defaults and the structured sequences start empty. -/
def parseResumeText (t : String) : Resume :=
  { name := nameOf t,
    email := some (match emailFind t.data with | some m => String.mk m | none => ""),
    phone := some (match phoneFind t.data with | some m => String.mk m | none => ""),
    summary := some (extractSummary t),
    skills := some (extractSkills t),
    experience := some [],
    education := some [] }

/-! ## Persistence (src/lib/supabase.ts, saveResume)

The Supabase store is modelled as four in-memory tables; each remote call's
success is supplied by the environment, as are the generated identifiers and
the timestamp.  Child-row identifiers are drawn per table by index.  A child
delete call whose result the source ignores is modelled as leaving the table
unchanged when it fails, without aborting the save. -/

inductive StoreError where
  | storeError
deriving DecidableEq

structure ResumeRow where
  id : String
  name : String
  email : Option String
  phone : Option String
  location : Option String
  linkedin : Option String
  website : Option String
  summary : Option String
  skills : Option (List String)
  createdAt : String
deriving DecidableEq

structure ExpRow where
  id : String
  resumeId : String
  company : String
  position : String
  startDate : Option String
  endDate : Option String
  description : Option String
  orderIndex : Nat
deriving DecidableEq

structure EduRow where
  id : String
  resumeId : String
  institution : String
  degree : String
  fieldOfStudy : Option String
  startDate : Option String
  endDate : Option String
  description : Option String
  orderIndex : Nat
deriving DecidableEq

structure CertRow where
  id : String
  resumeId : String
  name : String
  issuer : Option String
  date : Option String
  description : Option String
  orderIndex : Nat
deriving DecidableEq

structure Store where
  resumes : List ResumeRow
  resumeExperiences : List ExpRow
  resumeEducation : List EduRow
  resumeCertifications : List CertRow
deriving DecidableEq

/-- Environment of one saveResume call: generated identifiers, the timestamp,
and the outcome of each remote operation. -/
structure SaveEnv where
  freshId : String
  now : String
  expRowId : Nat → String
  eduRowId : Nat → String
  certRowId : Nat → String
  resumesUpsertOk : Bool
  expDeleteOk : Bool
  expInsertOk : Bool
  eduDeleteOk : Bool
  eduInsertOk : Bool
  certDeleteOk : Bool
  certInsertOk : Bool

/-- Keyed upsert: replace the row bearing the same identifier, or append. -/
def upsertById (row : ResumeRow) (l : List ResumeRow) : List ResumeRow :=
  if l.any (fun r => r.id == row.id) then
    l.map fun r => if r.id == row.id then row else r
  else l ++ [row]

def mapIdxFrom (f : Nat → α → β) : Nat → List α → List β
  | _, [] => []
  | n, x :: xs => f n x :: mapIdxFrom f (n + 1) xs

def mkResumeRow (env : SaveEnv) (resumeId : String) (r : Resume) : ResumeRow :=
  { id := resumeId, name := r.name, email := r.email, phone := r.phone,
    location := r.location, linkedin := r.linkedin, website := r.website,
    summary := r.summary, skills := r.skills, createdAt := env.now }

def mkExpRow (env : SaveEnv) (resumeId : String) (i : Nat) (e : Experience) : ExpRow :=
  { id := env.expRowId i, resumeId := resumeId, company := e.company,
    position := e.position, startDate := e.startDate, endDate := e.endDate,
    description := e.description, orderIndex := i }

def mkEduRow (env : SaveEnv) (resumeId : String) (i : Nat) (e : Education) : EduRow :=
  { id := env.eduRowId i, resumeId := resumeId, institution := e.institution,
    degree := e.degree, fieldOfStudy := e.fieldOfStudy, startDate := e.startDate,
    endDate := e.endDate, description := e.description, orderIndex := i }

def mkCertRow (env : SaveEnv) (resumeId : String) (i : Nat) (c : Certification) : CertRow :=
  { id := env.certRowId i, resumeId := resumeId, name := c.name,
    issuer := c.issuer, date := c.date, description := c.description,
    orderIndex := i }

/-- Propagate a thrown error, otherwise run the next step; mirrors the
sequential awaits inside the try block. -/
def bindStep (r : Option StoreError × Store) (f : Store → Option StoreError × Store) :
    Option StoreError × Store :=
  match r with
  | (some e, s) => (some e, s)
  | (none, s) => f s

/-- Experience block: when the array is present and non-empty, delete the old
child rows (result unchecked by the source) then insert the new rows, throwing
on insert failure. -/
def expStep (env : SaveEnv) (resume : Resume) (resumeId : String) (s : Store) :
    Option StoreError × Store :=
  match resume.experience with
  | none => (none, s)
  | some l =>
    if l.length > 0 then
      let s1 :=
        if env.expDeleteOk then
          { s with resumeExperiences := s.resumeExperiences.filter fun e => e.resumeId != resumeId }
        else s
      if env.expInsertOk then
        (none, { s1 with resumeExperiences := s1.resumeExperiences ++ mapIdxFrom (mkExpRow env resumeId) 0 l })
      else (some StoreError.storeError, s1)
    else (none, s)

/-- Education block, with the same shape as the experience block. -/
def eduStep (env : SaveEnv) (resume : Resume) (resumeId : String) (s : Store) :
    Option StoreError × Store :=
  match resume.education with
  | none => (none, s)
  | some l =>
    if l.length > 0 then
      let s1 :=
        if env.eduDeleteOk then
          { s with resumeEducation := s.resumeEducation.filter fun e => e.resumeId != resumeId }
        else s
      if env.eduInsertOk then
        (none, { s1 with resumeEducation := s1.resumeEducation ++ mapIdxFrom (mkEduRow env resumeId) 0 l })
      else (some StoreError.storeError, s1)
    else (none, s)

/-- Certification block, with the same shape as the experience block. -/
def certStep (env : SaveEnv) (resume : Resume) (resumeId : String) (s : Store) :
    Option StoreError × Store :=
  match resume.certifications with
  | none => (none, s)
  | some l =>
    if l.length > 0 then
      let s1 :=
        if env.certDeleteOk then
          { s with resumeCertifications := s.resumeCertifications.filter fun c => c.resumeId != resumeId }
        else s
      if env.certInsertOk then
        (none, { s1 with resumeCertifications := s1.resumeCertifications ++ mapIdxFrom (mkCertRow env resumeId) 0 l })
      else (some StoreError.storeError, s1)
    else (none, s)

/-- The identifier a save uses: a truthy existing identifier is kept,
otherwise the freshly generated one is taken. -/
def saveResumeId (env : SaveEnv) (resume : Resume) : String :=
  if truthyS resume.id then resume.id.getD "" else env.freshId

/-- The persistence routine: keep a truthy existing identifier or draw a fresh
one, upsert the main row, then replace the child rows table by table.  A
thrown error is caught and surfaced with an empty identifier; the store keeps
whatever the earlier steps already wrote. -/
def saveResume (env : SaveEnv) (resume : Resume) (s : Store) :
    (String × Option StoreError) × Store :=
  if env.resumesUpsertOk then
    match bindStep (bindStep
        (expStep env resume (saveResumeId env resume)
          { s with resumes :=
              upsertById (mkResumeRow env (saveResumeId env resume) resume) s.resumes })
        (eduStep env resume (saveResumeId env resume)))
        (certStep env resume (saveResumeId env resume)) with
    | (none, s2) => ((saveResumeId env resume, none), s2)
    | (some e, s2) => (("", some e), s2)
  else (("", some StoreError.storeError), s)

/-- An environment in which every remote call succeeds. -/
def envAllOk : SaveEnv :=
  { freshId := "fresh-1", now := "2025-01-01T00:00:00.000Z",
    expRowId := fun _ => "exp-row", eduRowId := fun _ => "edu-row",
    certRowId := fun _ => "cert-row",
    resumesUpsertOk := true, expDeleteOk := true, expInsertOk := true,
    eduDeleteOk := true, eduInsertOk := true, certDeleteOk := true,
    certInsertOk := true }

/-- The environment in which inserting the new experience rows fails. -/
def envExpInsertFail : SaveEnv := { envAllOk with expInsertOk := false }

/-- The environment in which the initial record upsert fails. -/
def envUpsertFail : SaveEnv := { envAllOk with resumesUpsertOk := false }

/-- A record that already carries an identifier and one experience entry. -/
def rSaved : Resume :=
  { id := some "r1", name := "Alice",
    experience := some
      [{ company := "Acme", position := "Dev", description := some "Built things" }] }

/-- A store already holding the record and one child row under its
identifier. -/
def storePre : Store :=
  { resumes :=
      [{ id := "r1", name := "Old Alice", email := none, phone := none,
         location := none, linkedin := none, website := none, summary := none,
         skills := none, createdAt := "2024-01-01" }],
    resumeExperiences :=
      [{ id := "e-old", resumeId := "r1", company := "OldCo", position := "Intern",
         startDate := none, endDate := none, description := none, orderIndex := 0 }],
    resumeEducation := [], resumeCertifications := [] }

/-- Contiguity: the first list occurs as a contiguous segment of the second;
used to state that an extracted value is derived from the input text. -/
def ContigOf (u t : List Char) : Prop := ∃ a b, t = a ++ u ++ b

/-! ## Records used in claim statements -/

/-- An empty record: only the name is set; the other scalar fields are absent
and every sequence is present but empty. -/
def emptyRecord (name : String) : Resume :=
  { name := name, skills := some [], experience := some [], education := some [],
    certifications := some [], projects := some [] }

/-- Set an email and a phone on an otherwise-identical record. -/
def setContact (r : Resume) (e p : String) : Resume :=
  { r with email := some e, phone := some p }

/-- The improvement texts of the seven rules that fail independently on an
empty record, in the order the engine pushes them. -/
def sevenImprovements : List String :=
  [contactImprovementText, summaryImprovementText, skillsImprovementText,
   experienceImprovementText, educationImprovementText, keywordImprovementText,
   certImprovementText]

/-- A name made of five keywords of the fixed action-verb list. -/
def keywordLadenName : String := "managed developed created implemented led"

/-- A record carrying four keywords in its name and no contact fields. -/
def kwRecord : Resume := emptyRecord "managed developed created implemented"

/-- The same record with an email that contains a fifth keyword. -/
def kwRecordContact : Resume := setContact kwRecord "led@example.com" "5551234567"

/-- A record with a single experience entry whose description matches the
achievement pattern. -/
def oneExpRecord : Resume :=
  { name := "Jo",
    experience := some
      [{ company := "A", position := "B", description := some "increased revenue by 20%" }] }

/-! ## Theorems -/

theorem ruleStep_eq (c : Bool) (pts : Int) (stext itext : String) (st : AnalysisResult) :
    ruleStep c pts stext itext st =
      { score := st.score + (if c then pts else 0),
        strengths := st.strengths ++ (if c then [stext] else []),
        improvements := st.improvements ++ (if c then [] else [itext]) } := by
  unfold ruleStep
  split_ifs <;> simp

theorem ruleExperienceStep_eq (c4 q : Bool) (st : AnalysisResult) :
    ruleExperienceStep c4 q st =
      { score := st.score + (if c4 then 20 + (if q then (10 : Int) else 0) else 0),
        strengths := st.strengths ++ (if c4 then (if q then [quantStrengthText] else []) else []),
        improvements :=
          st.improvements ++
            (if c4 then (if q then [] else [quantImprovementText])
             else [experienceImprovementText]) } := by
  unfold ruleExperienceStep
  split_ifs <;> simp [add_assoc]

/-- Closed form of the scoring engine: each rule contributes its points, its
strength on success, and its improvement on failure, in source order. -/
theorem analyzeResume_closed (r : Resume) :
    analyzeResume r =
      { score :=
          (if condContact r then (10 : Int) else 0) + (if condSummary r then 15 else 0)
            + (if condSkills r then 15 else 0)
            + (if condExperience r then 20 + (if hasQuantifiable r then (10 : Int) else 0) else 0)
            + (if condEducation r then 10 else 0) + (if condKeywords r then 10 else 0)
            + (if condCertifications r then 10 else 0),
        strengths :=
          (if condContact r then [contactStrengthText] else []) ++
          (if condSummary r then [summaryStrengthText] else []) ++
          (if condSkills r then [skillsStrengthText] else []) ++
          (if condExperience r then (if hasQuantifiable r then [quantStrengthText] else [])
           else []) ++
          (if condEducation r then [educationStrengthText] else []) ++
          (if condKeywords r then [keywordStrengthText] else []) ++
          (if condCertifications r then [certStrengthText] else []),
        improvements :=
          (if condContact r then [] else [contactImprovementText]) ++
          (if condSummary r then [] else [summaryImprovementText]) ++
          (if condSkills r then [] else [skillsImprovementText]) ++
          (if condExperience r then (if hasQuantifiable r then [] else [quantImprovementText])
           else [experienceImprovementText]) ++
          (if condEducation r then [] else [educationImprovementText]) ++
          (if condKeywords r then [] else [keywordImprovementText]) ++
          (if condCertifications r then [] else [certImprovementText]) } := by
  simp only [analyzeResume, ruleStep_eq, ruleExperienceStep_eq]
  simp [AnalysisResult.mk.injEq, List.append_assoc]

/-- C1: for every record, the score returned by the scoring engine is an
integer with 0 ≤ score ≤ 100. -/
theorem claim1_score_bounds (r : Resume) :
    0 ≤ (analyzeResume r).score ∧ (analyzeResume r).score ≤ 100 := by
  rw [analyzeResume_closed]
  dsimp only
  split_ifs <;> norm_num

/-- C2: when the experience sequence has fewer than two entries, rule 5
contributes neither points — the score is exactly the sum of the six other
independent rules — nor the quantifiable-achievement strength, regardless of
any description content. -/
theorem claim2_rule5_gated (r : Resume)
    (h : (r.experience.getD []).length < 2) :
    (analyzeResume r).score =
      (if condContact r then (10 : Int) else 0) + (if condSummary r then 15 else 0)
        + (if condSkills r then 15 else 0) + (if condEducation r then 10 else 0)
        + (if condKeywords r then 10 else 0) + (if condCertifications r then 10 else 0)
    ∧ quantStrengthText ∉ (analyzeResume r).strengths := by
  have h4 : condExperience r = false := by
    unfold condExperience
    cases hre : r.experience with
    | none => rfl
    | some l =>
      rw [hre] at h
      simp at h ⊢
      omega
  refine ⟨?_, ?_⟩
  · rw [analyzeResume_closed]
    simp only [h4, Bool.false_eq_true, if_false]
    split_ifs <;> norm_num
  · rw [analyzeResume_closed]
    simp only [h4, Bool.false_eq_true, if_false]
    split_ifs <;> decide

/-- Witness for C2 at a record with one experience entry whose description
matches the achievement pattern. -/
theorem claim2_rule5_gated_witness :
    (oneExpRecord.experience.getD []).length < 2 ∧
      ((analyzeResume oneExpRecord).score =
        (if condContact oneExpRecord then (10 : Int) else 0)
          + (if condSummary oneExpRecord then 15 else 0)
          + (if condSkills oneExpRecord then 15 else 0)
          + (if condEducation oneExpRecord then 10 else 0)
          + (if condKeywords oneExpRecord then 10 else 0)
          + (if condCertifications oneExpRecord then 10 else 0)
      ∧ quantStrengthText ∉ (analyzeResume oneExpRecord).strengths) :=
  ⟨by decide, claim2_rule5_gated oneExpRecord (by decide)⟩

/-- Counterexample to C3 as stated: an empty record whose name consists of
five keywords of the action-verb list scores 10 through rule 7, with one
strength and only six improvements. -/
theorem claim3_counterexample :
    keywordLadenName ≠ "" ∧
      (analyzeResume (emptyRecord keywordLadenName)).score = 10 ∧
      (analyzeResume (emptyRecord keywordLadenName)).strengths = [keywordStrengthText] ∧
      (analyzeResume (emptyRecord keywordLadenName)).improvements.length = 6 := by
  decide

/-- C3 (amended): an empty record whose serialized text contains fewer than
five keywords of the fixed list — as for any ordinary name — scores 0, with
an empty strengths list and exactly the seven improvement entries of the
non-gated rules. -/
theorem claim3_empty_record (name : String) (_hname : name ≠ "")
    (hkw : condKeywords (emptyRecord name) = false) :
    analyzeResume (emptyRecord name) =
      { score := 0, strengths := [], improvements := sevenImprovements } := by
  have h1 : condContact (emptyRecord name) = false := rfl
  have h2 : condSummary (emptyRecord name) = false := rfl
  have h3 : condSkills (emptyRecord name) = false := rfl
  have h4 : condExperience (emptyRecord name) = false := rfl
  have h5 : hasQuantifiable (emptyRecord name) = false := rfl
  have h6 : condEducation (emptyRecord name) = false := rfl
  have h8 : condCertifications (emptyRecord name) = false := rfl
  rw [analyzeResume_closed]
  simp [h1, h2, h3, h4, h5, h6, h8, hkw, sevenImprovements]

/-- Witness for C3 (amended) at the name John Doe. -/
theorem claim3_empty_record_witness :
    (("John Doe" : String) ≠ "" ∧ condKeywords (emptyRecord "John Doe") = false) ∧
      analyzeResume (emptyRecord "John Doe") =
        { score := 0, strengths := [], improvements := sevenImprovements } :=
  ⟨⟨by decide, by decide⟩, claim3_empty_record "John Doe" (by decide) (by decide)⟩

/-- Counterexample to C4 as stated: a record with four keywords in its name
and no contact fields; adding a qualifying email containing a fifth keyword
raises the score by 20, not 10, because rule 7 flips as well. -/
theorem claim4_counterexample :
    truthyS kwRecord.email = false ∧ truthyS kwRecord.phone = false ∧
      ("led@example.com" : String) ≠ "" ∧ ("5551234567" : String) ≠ "" ∧
      (analyzeResume kwRecordContact).score ≠ (analyzeResume kwRecord).score + 10 ∧
      (analyzeResume kwRecordContact).score = (analyzeResume kwRecord).score + 20 := by
  decide

/-- C4 (amended): adding a qualifying email and phone to a record satisfying
neither contact condition raises the score by exactly 10 and moves the
contact finding from the improvements to the strengths, provided the keyword
rule's outcome is unchanged by the added text. -/
theorem claim4_contact_monotonicity (r : Resume) (e p : String)
    (he0 : truthyS r.email = false) (hp0 : truthyS r.phone = false)
    (he : e ≠ "") (hp : p ≠ "")
    (hkw : condKeywords (setContact r e p) = condKeywords r) :
    (analyzeResume (setContact r e p)).score = (analyzeResume r).score + 10 ∧
      (analyzeResume (setContact r e p)).strengths =
        contactStrengthText :: (analyzeResume r).strengths ∧
      (analyzeResume r).improvements =
        contactImprovementText :: (analyzeResume (setContact r e p)).improvements := by
  have hc0 : condContact r = false := by
    simp [condContact, he0, hp0]
  have hc1 : condContact (setContact r e p) = true := by
    simp [condContact, setContact, truthyS, Bool.eq_false_iff, String.isEmpty_iff, he, hp]
  have hs2 : condSummary (setContact r e p) = condSummary r := rfl
  have hs3 : condSkills (setContact r e p) = condSkills r := rfl
  have hs4 : condExperience (setContact r e p) = condExperience r := rfl
  have hs5 : hasQuantifiable (setContact r e p) = hasQuantifiable r := rfl
  have hs6 : condEducation (setContact r e p) = condEducation r := rfl
  have hs8 : condCertifications (setContact r e p) = condCertifications r := rfl
  rw [analyzeResume_closed, analyzeResume_closed]
  rw [hc0, hc1, hkw, hs2, hs3, hs4, hs5, hs6, hs8]
  refine ⟨?_, ?_, ?_⟩
  · norm_num
    ring
  · simp
  · simp

/-- C9: extractor output always has an empty experience sequence, an empty
education sequence, and no certifications field, so scoring it unmodified
never exceeds 50 points. -/
theorem claim9_extractor_score_cap (t : String) :
    (parseResumeText t).experience = some [] ∧
      (parseResumeText t).education = some [] ∧
      (parseResumeText t).certifications = none ∧
      (analyzeResume (parseResumeText t)).score ≤ 50 := by
  have h4 : condExperience (parseResumeText t) = false := rfl
  have h5 : hasQuantifiable (parseResumeText t) = false := rfl
  have h6 : condEducation (parseResumeText t) = false := rfl
  have h8 : condCertifications (parseResumeText t) = false := rfl
  refine ⟨rfl, rfl, rfl, ?_⟩
  rw [analyzeResume_closed]
  simp only [h4, h5, h6, h8, Bool.false_eq_true, if_false]
  split_ifs <;> norm_num

/-- C10: the extracted name is never empty: it is the first line whose
trimmed form is non-empty, or the fixed placeholder when no such line
exists. -/
theorem claim10_name_nonempty (t : String) :
    (parseResumeText t).name ≠ "" ∧
      (parseResumeText t).name =
        (if cleanedLinesOf t = [] then unknownNameText
         else String.mk ((cleanedLinesOf t).headD [])) := by
  have hn : (parseResumeText t).name = nameOf t := rfl
  rw [hn]
  by_cases hcl : cleanedLinesOf t = []
  · rw [nameOf, hcl]
    simp [unknownNameText]
  · obtain ⟨h, tl, hcl2⟩ : ∃ h tl, cleanedLinesOf t = h :: tl := by
      cases hcl3 : cleanedLinesOf t with
      | nil => exact absurd hcl3 hcl
      | cons h tl => exact ⟨h, tl, rfl⟩
    have hmem : h ∈ (splitLinesJS t.data).filter (fun l => !(trimL l).isEmpty) := by
      have : h ∈ cleanedLinesOf t := by
        rw [hcl2]
        exact List.mem_cons_self h tl
      exact this
    have hpred := (List.mem_filter.mp hmem).2
    have hne : h ≠ [] := by
      intro hh
      rw [hh] at hpred
      simp [trimL] at hpred
    have hie : h.isEmpty = false := by
      cases h with
      | nil => exact absurd rfl hne
      | cons a l => rfl
    rw [nameOf, hcl2]
    simp only [List.headD_cons, hie, Bool.false_eq_true, if_false, if_neg hcl]
    refine ⟨?_, by simp⟩
    intro hcontra
    have : h = [] := by
      have := congrArg String.data hcontra
      simpa using this
    exact hne this

/-- Witness for C4 (amended) at an empty John Doe record and a keyword-free
email and phone. -/
theorem claim4_contact_monotonicity_witness :
    (truthyS (emptyRecord "John Doe").email = false
      ∧ truthyS (emptyRecord "John Doe").phone = false
      ∧ ("a@b.com" : String) ≠ "" ∧ ("123-4567" : String) ≠ ""
      ∧ condKeywords (setContact (emptyRecord "John Doe") "a@b.com" "123-4567") =
          condKeywords (emptyRecord "John Doe")) ∧
      ((analyzeResume (setContact (emptyRecord "John Doe") "a@b.com" "123-4567")).score =
          (analyzeResume (emptyRecord "John Doe")).score + 10 ∧
        (analyzeResume (setContact (emptyRecord "John Doe") "a@b.com" "123-4567")).strengths =
          contactStrengthText :: (analyzeResume (emptyRecord "John Doe")).strengths ∧
        (analyzeResume (emptyRecord "John Doe")).improvements =
          contactImprovementText ::
            (analyzeResume (setContact (emptyRecord "John Doe") "a@b.com" "123-4567")).improvements) :=
  ⟨⟨by decide, by decide, by decide, by decide, by decide⟩,
    claim4_contact_monotonicity (emptyRecord "John Doe") "a@b.com" "123-4567"
      (by decide) (by decide) (by decide) (by decide) (by decide)⟩

theorem contig_of_pre {u t : List Char} (r : List Char) (h : u ++ r = t) :
    ContigOf u t :=
  ⟨[], r, by simp [← h]⟩

theorem contig_of_suf {u t : List Char} (a : List Char) (h : a ++ u = t) :
    ContigOf u t :=
  ⟨a, [], by simp [← h]⟩

theorem contig_cons {p l : List Char} (c : Char) (h : ContigOf p l) :
    ContigOf p (c :: l) := by
  obtain ⟨a, b, hl⟩ := h
  exact ⟨c :: a, b, by simp [hl]⟩

theorem contig_trans {u v w : List Char} (h1 : ContigOf u v) (h2 : ContigOf v w) :
    ContigOf u w := by
  obtain ⟨c, d, hv⟩ := h1
  obtain ⟨a, b, hw⟩ := h2
  exact ⟨a ++ c, d ++ b, by simp [hw, hv, List.append_assoc]⟩

theorem spanChar_append (p : Char → Bool) (l : List Char) :
    (spanChar p l).1 ++ (spanChar p l).2 = l := by
  induction l with
  | nil => rfl
  | cons c rest ih =>
    unfold spanChar
    by_cases hc : p c <;> simp [hc, ih]

theorem scanFirst_some {f : List Char → Option (List Char)} :
    ∀ {l m : List Char}, scanFirst f l = some m →
      ∃ s, (∃ a, a ++ s = l) ∧ f s = some m := by
  intro l
  induction l with
  | nil => exact fun h => ⟨[], ⟨[], rfl⟩, h⟩
  | cons c rest ih =>
    intro m h
    unfold scanFirst at h
    cases hf : f (c :: rest) with
    | some m2 =>
      rw [hf] at h
      exact ⟨c :: rest, ⟨[], rfl⟩, by rw [hf, Option.some.inj h]⟩
    | none =>
      rw [hf] at h
      obtain ⟨s, ⟨a, ha⟩, hfs⟩ := ih h
      exact ⟨s, ⟨c :: a, by simp [ha]⟩, hfs⟩

theorem scanFirstRem_some {f : List Char → Option (List Char)} :
    ∀ {l : List Char} {sr : List Char × List Char}, scanFirstRem f l = some sr →
      (∃ a, a ++ sr.1 = l) ∧ f sr.1 = some sr.2 := by
  intro l
  induction l with
  | nil =>
    intro sr h
    unfold scanFirstRem at h
    cases hf : f [] with
    | none => rw [hf] at h; cases h
    | some r =>
      rw [hf] at h
      obtain rfl : (([] : List Char), r) = sr := Option.some.inj h
      exact ⟨⟨[], rfl⟩, hf⟩
  | cons c rest ih =>
    intro sr h
    unfold scanFirstRem at h
    cases hf : f (c :: rest) with
    | some r =>
      rw [hf] at h
      obtain rfl : (c :: rest, r) = sr := Option.some.inj h
      exact ⟨⟨[], rfl⟩, hf⟩
    | none =>
      rw [hf] at h
      obtain ⟨⟨a, ha⟩, hfs⟩ := ih h
      exact ⟨⟨c :: a, by simp [ha]⟩, hfs⟩

theorem emailDomainSplitAux_pre (run : List Char) :
    ∀ n dt, emailDomainSplitAux run n = some dt →
      ∃ rest, dt.1 ++ '.' :: (dt.2 ++ rest) = run := by
  intro n
  induction n with
  | zero => intro dt h; simp [emailDomainSplitAux] at h
  | succ p ih =>
    intro dt h
    rw [emailDomainSplitAux] at h
    split at h
    · rename_i hcond
      rw [Bool.and_eq_true] at hcond
      have hdot := beq_iff_eq.mp hcond.1
      obtain ⟨hlt, hg⟩ := List.getElem?_eq_some.mp hdot
      have hval := Option.some.inj h
      refine ⟨(spanChar Char.isAlpha (run.drop (p + 2))).2, ?_⟩
      rw [← hval]
      have hcat : (spanChar Char.isAlpha (run.drop (p + 2))).1 ++
          (spanChar Char.isAlpha (run.drop (p + 2))).2 = run.drop (p + 2) :=
        spanChar_append _ _
      have hdrop : run.drop (p + 1) = '.' :: run.drop (p + 2) := by
        rw [List.drop_eq_getElem_cons hlt, hg]
      conv_rhs => rw [← List.take_append_drop (p + 1) run, hdrop]
      rw [hcat]
    · exact ih dt h

theorem emailMatchAt_pre {l m : List Char} (h : emailMatchAt l = some m) :
    ∃ r, m ++ r = l := by
  unfold emailMatchAt at h
  split at h
  · cases h
  · split at h
    · rename_i r2 hsp
      split at h
      · cases h
      · rename_i dt hd
        have hm := Option.some.inj h
        obtain ⟨rest, hrest⟩ := emailDomainSplitAux_pre _ _ dt hd
        refine ⟨rest ++ (spanChar isDomainChar r2).2, ?_⟩
        rw [← hm]
        have h1 : (spanChar isLocalChar l).1 ++ (spanChar isLocalChar l).2 = l :=
          spanChar_append _ _
        have h2 : (spanChar isDomainChar r2).1 ++ (spanChar isDomainChar r2).2 = r2 :=
          spanChar_append _ _
        conv_rhs => rw [← h1, hsp, ← h2, ← hrest]
        simp [List.append_assoc]
    · cases h

/-- The consuming functions of the phone matcher return a suffix: what they
accept is a prefix of their input. -/
def SufStep (f : List Char → Option (List Char)) : Prop :=
  ∀ l r, f l = some r → ∃ pre, pre ++ r = l

theorem sufStep_digitsExact (n : Nat) : SufStep (digitsExact n) := by
  induction n with
  | zero =>
    intro l r h
    exact ⟨[], by rw [Option.some.inj h]; rfl⟩
  | succ n ih =>
    intro l r h
    cases l with
    | nil => simp [digitsExact] at h
    | cons c rest =>
      rw [digitsExact] at h
      by_cases hc : c.isDigit
      · rw [if_pos hc] at h
        obtain ⟨pre, hp⟩ := ih rest r h
        exact ⟨c :: pre, by simp [hp]⟩
      · rw [if_neg hc] at h; cases h

theorem sufStep_consumeSep : SufStep consumeSep := by
  intro l r h
  cases l with
  | nil => cases h
  | cons c rest =>
    rw [consumeSep] at h
    by_cases hc : isSepChar c
    · rw [if_pos hc] at h
      exact ⟨[c], by rw [Option.some.inj h]; rfl⟩
    · rw [if_neg hc] at h; cases h

theorem sufStep_consumeLParen : SufStep consumeLParen := by
  intro l r h
  unfold consumeLParen at h
  split at h
  · exact ⟨['('], by rw [Option.some.inj h]; rfl⟩
  · cases h

theorem sufStep_consumeRParen : SufStep consumeRParen := by
  intro l r h
  unfold consumeRParen at h
  split at h
  · exact ⟨[')'], by rw [Option.some.inj h]; rfl⟩
  · cases h

theorem sufStep_firstSome {f g : List Char → Option (List Char)}
    (hf : SufStep f) (hg : SufStep g) : SufStep (fun l => firstSome (f l) (g l)) := by
  intro l r h
  simp only [firstSome] at h
  split at h
  · rename_i x hfl
    obtain rfl := Option.some.inj h
    exact hf l x hfl
  · exact hg l r h

theorem sufStep_optConsume {step k : List Char → Option (List Char)}
    (hs : SufStep step) (hk : SufStep k) : SufStep (optConsume step k) := by
  intro l r h
  rw [optConsume] at h
  split at h
  · rename_i l2 hstep
    simp only [firstSome] at h
    split at h
    · rename_i x hk2
      obtain rfl := Option.some.inj h
      obtain ⟨p1, h1⟩ := hk l2 x hk2
      obtain ⟨p2, h2⟩ := hs l l2 hstep
      exact ⟨p2 ++ p1, by rw [List.append_assoc, h1, h2]⟩
    · exact hk l r h
  · exact hk l r h

theorem sufStep_bindDigits (n : Nat) {k : List Char → Option (List Char)}
    (hk : SufStep k) : SufStep (fun l => (digitsExact n l).bind k) := by
  intro l r h
  obtain ⟨mid, hmid, hkr⟩ := Option.bind_eq_some.mp h
  obtain ⟨p1, h1⟩ := sufStep_digitsExact n l mid hmid
  obtain ⟨p2, h2⟩ := hk mid r hkr
  exact ⟨p1 ++ p2, by rw [List.append_assoc, h2, h1]⟩

theorem sufStep_phoneGroupA {k : List Char → Option (List Char)} (hk : SufStep k) :
    SufStep (phoneGroupA k) := by
  intro l r h
  unfold phoneGroupA at h
  split at h
  · rename_i r0
    have hafter : SufStep (fun rd => optConsume consumeSep k rd) :=
      sufStep_optConsume sufStep_consumeSep hk
    have h3 : SufStep (fun l0 => (digitsExact 3 l0).bind fun rd => optConsume consumeSep k rd) :=
      sufStep_bindDigits 3 hafter
    have h2 : SufStep (fun l0 => (digitsExact 2 l0).bind fun rd => optConsume consumeSep k rd) :=
      sufStep_bindDigits 2 hafter
    have h1 : SufStep (fun l0 => (digitsExact 1 l0).bind fun rd => optConsume consumeSep k rd) :=
      sufStep_bindDigits 1 hafter
    have hall := sufStep_firstSome h3 (sufStep_firstSome h2 h1) r0 r h
    obtain ⟨pre, hp⟩ := hall
    exact ⟨'+' :: pre, by simp [hp]⟩
  · cases h

theorem sufStep_phoneGroupAOpt {k : List Char → Option (List Char)} (hk : SufStep k) :
    SufStep (phoneGroupAOpt k) :=
  sufStep_firstSome (sufStep_phoneGroupA hk) hk

theorem sufStep_phoneGroupB {k : List Char → Option (List Char)} (hk : SufStep k) :
    SufStep (phoneGroupB k) := by
  unfold phoneGroupB
  exact sufStep_optConsume sufStep_consumeLParen
    (sufStep_bindDigits 3
      (sufStep_optConsume sufStep_consumeRParen (sufStep_optConsume sufStep_consumeSep hk)))

theorem sufStep_phoneGroupBOpt {k : List Char → Option (List Char)} (hk : SufStep k) :
    SufStep (phoneGroupBOpt k) :=
  sufStep_firstSome (sufStep_phoneGroupB hk) hk

theorem sufStep_phoneTail : SufStep phoneTail := by
  unfold phoneTail
  exact sufStep_bindDigits 3 (sufStep_optConsume sufStep_consumeSep (sufStep_digitsExact 4))

theorem sufStep_phoneMatchAt : SufStep phoneMatchAt := by
  unfold phoneMatchAt
  exact sufStep_phoneGroupAOpt (sufStep_phoneGroupBOpt sufStep_phoneTail)

theorem phoneFind_contig {t m : List Char} (h : phoneFind t = some m) :
    ContigOf m t := by
  unfold phoneFind at h
  cases hs : scanFirstRem phoneMatchAt t with
  | none => rw [hs] at h; cases h
  | some sr =>
    rw [hs] at h
    have hmm : sr.1.take (sr.1.length - sr.2.length) = m := Option.some.inj h
    obtain ⟨⟨a, ha⟩, hf⟩ := scanFirstRem_some hs
    obtain ⟨pre, hpre⟩ := sufStep_phoneMatchAt sr.1 sr.2 hf
    have hm : m = pre := by
      rw [← hmm, ← hpre]
      simp
    exact contig_trans (hm ▸ contig_of_pre sr.2 hpre) (contig_of_suf a ha)

theorem captureUntil_pre : ∀ l : List Char, ∃ r, captureUntil l ++ r = l := by
  intro l
  induction l with
  | nil => exact ⟨[], rfl⟩
  | cons c rest ih =>
    cases rest with
    | nil => exact ⟨[], rfl⟩
    | cons c2 rest2 =>
      rw [captureUntil]
      by_cases hc : c = '\n' && (c2 = '\n' || isAZci c2)
      · rw [if_pos hc]; exact ⟨c :: c2 :: rest2, rfl⟩
      · rw [if_neg hc]
        obtain ⟨r, hr⟩ := ih
        exact ⟨r, by simp [hr]⟩

theorem dropColon_suf (d : List Char) : ∃ a, a ++ dropColon d = d := by
  cases d with
  | nil => exact ⟨[], rfl⟩
  | cons x xs =>
    by_cases hx : x = ':'
    · subst hx; exact ⟨[':'], rfl⟩
    · refine ⟨[], ?_⟩
      cases x
      simp_all [dropColon]

theorem findSection_suf (header : String) :
    ∀ {l rest : List Char}, findSection header l = some rest → ∃ a, a ++ rest = l := by
  intro l
  induction l with
  | nil => intro rest h; simp [findSection] at h
  | cons c tl ih =>
    intro rest h
    rw [findSection] at h
    by_cases hc : ciStartsWith header (c :: tl)
    · rw [if_pos hc] at h
      have hval := Option.some.inj h
      obtain ⟨a2, ha2⟩ := dropColon_suf ((c :: tl).drop header.data.length)
      refine ⟨(c :: tl).take header.data.length ++ a2, ?_⟩
      rw [← hval, List.append_assoc, ha2, List.take_append_drop]
    · rw [if_neg hc] at h
      obtain ⟨a, ha⟩ := ih h
      exact ⟨c :: a, by simp [ha]⟩

theorem splitCommaSemi_cons :
    ∀ l : List Char, ∃ h tl, splitCommaSemi l = h :: tl ∧ ∃ r, h ++ r = l := by
  intro l
  induction l with
  | nil => exact ⟨[], [], rfl, [], rfl⟩
  | cons c rest ih =>
    rw [splitCommaSemi]
    by_cases hc : (c = ',' || c = ';') = true
    · rw [if_pos hc]
      exact ⟨[], splitCommaSemi rest, rfl, c :: rest, rfl⟩
    · rw [if_neg hc]
      obtain ⟨h, tl, hsp, r, hr⟩ := ih
      rw [hsp]
      exact ⟨c :: h, tl, rfl, r, by simp [hr]⟩

theorem splitCommaSemi_contig :
    ∀ (l : List Char) (p : List Char), p ∈ splitCommaSemi l → ContigOf p l := by
  intro l
  induction l with
  | nil =>
    intro p hp
    simp [splitCommaSemi] at hp
    subst hp
    exact ⟨[], [], rfl⟩
  | cons c rest ih =>
    intro p hp
    rw [splitCommaSemi] at hp
    by_cases hc : (c = ',' || c = ';') = true
    · rw [if_pos hc] at hp
      rcases List.mem_cons.mp hp with rfl | hm
      · exact ⟨[], c :: rest, rfl⟩
      · exact contig_cons c (ih p hm)
    · rw [if_neg hc] at hp
      obtain ⟨h, tl, hsp, r, hr⟩ := splitCommaSemi_cons rest
      rw [hsp] at hp
      simp only [consHead] at hp
      rcases List.mem_cons.mp hp with rfl | hm
      · exact contig_of_pre r (by simp [hr])
      · exact contig_cons c (ih p (by rw [hsp]; exact List.mem_cons_of_mem h hm))

/-- C6: extraction is total and conservative: on every input it produces a
record whose name is the placeholder or a line of the input, whose email and
phone are empty or contiguous fragments of the input, whose summary and
skills are empty or trimmed contiguous fragments, and whose structured
sequences are the empty defaults. -/
theorem claim6_extractor_total (t : String) :
    ((parseResumeText t).name = unknownNameText ∨
        (parseResumeText t).name.data ∈ splitLinesJS t.data) ∧
      (∃ e, (parseResumeText t).email = some e ∧ (e = "" ∨ ContigOf e.data t.data)) ∧
      (∃ ph, (parseResumeText t).phone = some ph ∧ (ph = "" ∨ ContigOf ph.data t.data)) ∧
      (∃ su, (parseResumeText t).summary = some su ∧
        (su = "" ∨ ∃ u, ContigOf u t.data ∧ su.data = trimL u)) ∧
      (∃ sk, (parseResumeText t).skills = some sk ∧
        ∀ x ∈ sk, x ≠ "" ∧ ∃ u, ContigOf u t.data ∧ x.data = trimL u) ∧
      (parseResumeText t).experience = some [] ∧
      (parseResumeText t).education = some [] ∧
      (parseResumeText t).certifications = none := by
  refine ⟨?_, ?_, ?_, ?_, ?_, rfl, rfl, rfl⟩
  · -- name
    have hn : (parseResumeText t).name = nameOf t := rfl
    rw [hn, nameOf]
    cases hcl : cleanedLinesOf t with
    | nil => simp
    | cons h tl =>
      have hmem : h ∈ (splitLinesJS t.data).filter (fun l => !(trimL l).isEmpty) := by
        have : h ∈ cleanedLinesOf t := by rw [hcl]; exact List.mem_cons_self h tl
        exact this
      have hpred := (List.mem_filter.mp hmem).2
      have hie : h.isEmpty = false := by
        cases h with
        | nil => simp [trimL] at hpred
        | cons a l => rfl
      simp only [List.headD_cons, hie, Bool.false_eq_true, if_false]
      exact Or.inr (List.mem_filter.mp hmem).1
  · -- email
    refine ⟨_, rfl, ?_⟩
    cases hef : emailFind t.data with
    | none => exact Or.inl rfl
    | some m =>
      right
      show ContigOf m t.data
      obtain ⟨s, ⟨a, ha⟩, hfs⟩ := scanFirst_some hef
      obtain ⟨r, hr⟩ := emailMatchAt_pre hfs
      exact contig_trans (contig_of_pre r hr) (contig_of_suf a ha)
  · -- phone
    refine ⟨_, rfl, ?_⟩
    cases hpf : phoneFind t.data with
    | none => exact Or.inl rfl
    | some m =>
      right
      show ContigOf m t.data
      exact phoneFind_contig hpf
  · -- summary
    refine ⟨_, rfl, ?_⟩
    unfold extractSummary
    cases hfs : findSection "summary" t.data with
    | none => exact Or.inl rfl
    | some rest =>
      right
      refine ⟨captureUntil rest, ?_, rfl⟩
      obtain ⟨a, ha⟩ := findSection_suf "summary" hfs
      obtain ⟨r, hr⟩ := captureUntil_pre rest
      exact contig_trans (contig_of_pre r hr) (contig_of_suf a ha)
  · -- skills
    refine ⟨_, rfl, ?_⟩
    intro x hx
    unfold extractSkills at hx
    cases hfs : findSection "skills" t.data with
    | none =>
      rw [hfs] at hx
      exact absurd hx (List.not_mem_nil x)
    | some rest =>
      rw [hfs] at hx
      obtain ⟨hx1, hx2⟩ := List.mem_filter.mp hx
      obtain ⟨p, hp, hxp⟩ := List.mem_map.mp hx1
      refine ⟨?_, p, ?_, ?_⟩
      · intro hxe
        rw [hxe] at hx2
        exact absurd hx2 (by decide)
      · obtain ⟨a, ha⟩ := findSection_suf "skills" hfs
        obtain ⟨r, hr⟩ := captureUntil_pre rest
        exact contig_trans (splitCommaSemi_contig _ p hp)
          (contig_trans (contig_of_pre r hr) (contig_of_suf a ha))
      · rw [← hxp]

theorem splitNL_cons_ex (l : List Char) : ∃ h tl, splitNL l = h :: tl := by
  cases l with
  | nil => exact ⟨[], [], rfl⟩
  | cons c rest =>
    rw [splitNL]
    by_cases hc : c = '\n'
    · rw [if_pos hc]
      exact ⟨[], splitNL rest, rfl⟩
    · rw [if_neg hc]
      cases hs : splitNL rest with
      | nil => exact ⟨[c], [], by simp [consHead]⟩
      | cons h t => exact ⟨c :: h, t, by simp [consHead]⟩

theorem splitNL_cons_not_nl {c : Char} (rest : List Char) (hc : ¬c = '\n') :
    ∃ h tl, splitNL (c :: rest) = (c :: h) :: tl := by
  rw [splitNL, if_neg hc]
  obtain ⟨h, tl, hs⟩ := splitNL_cons_ex rest
  rw [hs]
  exact ⟨h, tl, rfl⟩

/-- The lazy dot-all capture of the source regex coincides with the
line-by-line capture the specification describes. -/
theorem captureUntil_specJoin : ∀ l : List Char, captureUntil l = specJoin (splitNL l) := by
  intro l
  induction l with
  | nil => rfl
  | cons c rest ih =>
    cases rest with
    | nil =>
      by_cases hc : c = '\n'
      · subst hc
        rfl
      · simp [captureUntil, splitNL, consHead, specJoin, hc]
    | cons c2 rest2 =>
      rw [captureUntil]
      by_cases hterm : (c = '\n' && (c2 = '\n' || isAZci c2)) = true
      · rw [if_pos hterm]
        rw [Bool.and_eq_true] at hterm
        obtain ⟨hc, hor⟩ := hterm
        have hc' : c = '\n' := of_decide_eq_true hc
        subst hc'
        rw [splitNL, if_pos rfl]
        rw [Bool.or_eq_true] at hor
        rcases hor with h2 | hup
        · have hc2 : c2 = '\n' := of_decide_eq_true h2
          subst hc2
          rw [splitNL, if_pos rfl]
          obtain ⟨h, tl, hs⟩ := splitNL_cons_ex rest2
          rw [hs, specJoin]
          simp
        · have hc2 : ¬c2 = '\n' := by
            intro hcc
            subst hcc
            exact absurd hup (by decide)
          obtain ⟨h, tl, hs⟩ := splitNL_cons_not_nl rest2 hc2
          rw [hs, specJoin]
          simp [startsAZci, hup]
      · rw [if_neg hterm]
        rw [ih]
        by_cases hc : c = '\n'
        · subst hc
          have hnot : ¬c2 = '\n' ∧ isAZci c2 = false := by
            constructor
            · intro hcc
              exact hterm (by simp [hcc])
            · by_contra hcc
              simp only [Bool.not_eq_false] at hcc
              exact hterm (by simp [hcc])
          obtain ⟨h, tl, hs⟩ := splitNL_cons_not_nl rest2 hnot.1
          conv_rhs => rw [splitNL, if_pos rfl]
          rw [hs, specJoin]
          simp [startsAZci, hnot.2, hs]
        · conv_rhs => rw [splitNL, if_neg hc]
          obtain ⟨h, tl, hs⟩ := splitNL_cons_ex (c2 :: rest2)
          rw [hs]
          simp only [consHead]
          cases tl with
          | nil => rw [specJoin, specJoin]
          | cons next tl2 =>
            rw [specJoin, specJoin]
            split_ifs <;> simp

/-- Counterexample to C5 as stated, in both places the claim misdescribes the
program.  First, with the glossary's line-anchored reading of a section
header, the input of the first two conjuncts has no skills section, yet
extraction returns a non-empty sequence because the source regex matches the
keyword inside a line.  Second, the claim's capture boundary — the next line
starting with an uppercase letter — is also false of the program: the regex
carries the case-insensitive flag, under which its A-Z class matches
lowercase letters too, so on the third conjunct's input the program stops
before the lowercase line and returns two skills, not the three the claimed
boundary would produce. -/
theorem claim5_counterexample :
    skillsHeaderLineAnchored "good skills: Go, Rust" = false ∧
      extractSkills "good skills: Go, Rust" = ["Go", "Rust"] ∧
      extractSkills "skills: a, b\nmore, c" = ["a", "b"] := by
  decide

/-- C5 (amended): for every input, skills extraction equals the
specification's procedure amended to locate the first case-insensitive
occurrence of the keyword anywhere in the text and to stop at any
letter-starting line: capture up to the next blank line or the next line
starting with an ASCII letter of either case, or the end; split on commas
and semicolons, trim each piece, drop empty pieces; the empty sequence when
the keyword is absent. -/
theorem claim5_skills_extraction (t : String) : extractSkills t = skillsSpecList t := by
  unfold extractSkills skillsSpecList
  simp only [captureUntil_specJoin]

theorem expStep_resumes (env : SaveEnv) (r : Resume) (rid : String) (s : Store) :
    (expStep env r rid s).2.resumes = s.resumes := by
  unfold expStep
  split
  · rfl
  · split_ifs <;> rfl

theorem eduStep_resumes (env : SaveEnv) (r : Resume) (rid : String) (s : Store) :
    (eduStep env r rid s).2.resumes = s.resumes := by
  unfold eduStep
  split
  · rfl
  · split_ifs <;> rfl

theorem certStep_resumes (env : SaveEnv) (r : Resume) (rid : String) (s : Store) :
    (certStep env r rid s).2.resumes = s.resumes := by
  unfold certStep
  split
  · rfl
  · split_ifs <;> rfl

theorem bindStep_resumes {rr : Option StoreError × Store}
    {f : Store → Option StoreError × Store}
    (hf : ∀ s, (f s).2.resumes = s.resumes) :
    (bindStep rr f).2.resumes = rr.2.resumes := by
  unfold bindStep
  split
  · rfl
  · rename_i s heq
    rw [hf]

theorem upsertById_mem (row : ResumeRow) (l : List ResumeRow) :
    ∃ q ∈ upsertById row l, q.id = row.id := by
  unfold upsertById
  split
  · rename_i hany
    obtain ⟨q, hq, hid⟩ := List.any_eq_true.mp hany
    exact ⟨row, List.mem_map.mpr ⟨q, hq, by rw [if_pos hid]⟩, rfl⟩
  · exact ⟨row, by simp, rfl⟩

/-- Shape analysis of one save: either the initial upsert fails and nothing
changes, or the main row is upserted under the computed identifier and the
call returns that identifier on success or an error with an empty identifier,
with the resumes table holding the upserted row either way. -/
theorem saveResume_cases (env : SaveEnv) (r : Resume) (s : Store) :
    (env.resumesUpsertOk = false ∧ saveResume env r s = (("", some StoreError.storeError), s))
    ∨ (∃ s2, env.resumesUpsertOk = true ∧
        saveResume env r s = ((saveResumeId env r, none), s2) ∧
        s2.resumes = upsertById (mkResumeRow env (saveResumeId env r) r) s.resumes)
    ∨ (∃ e s2, env.resumesUpsertOk = true ∧
        saveResume env r s = (("", some e), s2) ∧
        s2.resumes = upsertById (mkResumeRow env (saveResumeId env r) r) s.resumes) := by
  have hres : ∀ s1 : Store,
      (bindStep (bindStep (expStep env r (saveResumeId env r) s1)
        (eduStep env r (saveResumeId env r)))
        (certStep env r (saveResumeId env r))).2.resumes = s1.resumes := by
    intro s1
    rw [bindStep_resumes (certStep_resumes env r (saveResumeId env r)),
      bindStep_resumes (eduStep_resumes env r (saveResumeId env r)),
      expStep_resumes]
  rw [saveResume]
  cases hup : env.resumesUpsertOk with
  | false =>
    left
    simp
  | true =>
    right
    simp only [if_true]
    cases hch : bindStep (bindStep
        (expStep env r (saveResumeId env r)
          { s with resumes :=
              upsertById (mkResumeRow env (saveResumeId env r) r) s.resumes })
        (eduStep env r (saveResumeId env r)))
        (certStep env r (saveResumeId env r)) with
    | mk err s2 =>
      have hs2 : s2.resumes =
          upsertById (mkResumeRow env (saveResumeId env r) r) s.resumes := by
        have hx :=
          hres ({ s with resumes := upsertById (mkResumeRow env (saveResumeId env r) r) s.resumes })
        rw [hch] at hx
        exact hx
      cases err with
      | none => exact Or.inl ⟨s2, trivial, rfl, hs2⟩
      | some e => exact Or.inr ⟨e, s2, trivial, rfl, hs2⟩

/-- C7: a record whose identifier is already set is persisted under, and the
call returns, that same identifier, independently of the fresh identifier
supply; a fresh identifier is returned and persisted only when the record has
none and the save succeeds, and a failed save surfaces no identifier. -/
theorem claim7_identifier_preserved (env : SaveEnv) (r : Resume) (s : Store) (x : String) :
    (truthyS r.id = true →
      saveResume { env with freshId := x } r s = saveResume env r s ∧
      ((saveResume env r s).1.2 = none →
        (saveResume env r s).1.1 = r.id.getD "" ∧
        ∃ q ∈ (saveResume env r s).2.resumes, q.id = r.id.getD "")) ∧
    (truthyS r.id = false →
      ((saveResume env r s).1.2 = none →
        (saveResume env r s).1.1 = env.freshId ∧
        ∃ q ∈ (saveResume env r s).2.resumes, q.id = env.freshId) ∧
      ((saveResume env r s).1.2 ≠ none → (saveResume env r s).1.1 = "")) := by
  constructor
  · intro h
    have hid : saveResumeId env r = r.id.getD "" := by rw [saveResumeId, h]; simp
    have hid2 : saveResumeId { env with freshId := x } r = r.id.getD "" := by
      rw [saveResumeId, h]; simp
    constructor
    · simp only [saveResume, hid, hid2]
      rfl
    · intro hok
      rcases saveResume_cases env r s with ⟨_, heq⟩ | ⟨s2, _, heq, hs2⟩ | ⟨e, s2, _, heq, hs2⟩
      · rw [heq] at hok; cases hok
      · rw [heq]
        refine ⟨hid, ?_⟩
        rw [hs2, ← hid]
        have hrow : (mkResumeRow env (saveResumeId env r) r).id = saveResumeId env r := rfl
        obtain ⟨q, hq, hqid⟩ := upsertById_mem (mkResumeRow env (saveResumeId env r) r)
          s.resumes
        exact ⟨q, hq, by rw [hqid, hrow]⟩
      · rw [heq] at hok; cases hok
  · intro h
    have hid : saveResumeId env r = env.freshId := by rw [saveResumeId, h]; simp
    constructor
    · intro hok
      rcases saveResume_cases env r s with ⟨_, heq⟩ | ⟨s2, _, heq, hs2⟩ | ⟨e, s2, _, heq, hs2⟩
      · rw [heq] at hok; cases hok
      · rw [heq]
        refine ⟨hid, ?_⟩
        rw [hs2, ← hid]
        obtain ⟨q, hq, hqid⟩ := upsertById_mem (mkResumeRow env (saveResumeId env r) r)
          s.resumes
        exact ⟨q, hq, hqid⟩
      · rw [heq] at hok; cases hok
    · intro herr
      rcases saveResume_cases env r s with ⟨_, heq⟩ | ⟨s2, _, heq, hs2⟩ | ⟨e, s2, _, heq, hs2⟩
      · rw [heq]
      · rw [heq] at herr; exact absurd rfl herr
      · rw [heq]

/-- Witness for C7 at a record with identifier r1, an all-success
environment, and a pre-populated store. -/
theorem claim7_identifier_preserved_witness :
    truthyS rSaved.id = true ∧
      (saveResume { envAllOk with freshId := "other" } rSaved storePre =
          saveResume envAllOk rSaved storePre ∧
        ((saveResume envAllOk rSaved storePre).1.2 = none →
          (saveResume envAllOk rSaved storePre).1.1 = rSaved.id.getD "" ∧
          ∃ q ∈ (saveResume envAllOk rSaved storePre).2.resumes, q.id = rSaved.id.getD "")) :=
  ⟨by decide, (claim7_identifier_preserved envAllOk rSaved storePre "other").1 (by decide)⟩

/-- Counterexample to C8 as stated: when inserting the new experience rows
fails after the main upsert succeeded, the error is surfaced but the store
retains partial state from the failed save — the updated main row remains and
the previously stored experience rows are gone. -/
theorem claim8_counterexample :
    (saveResume envExpInsertFail rSaved storePre).1.2 = some StoreError.storeError ∧
      (saveResume envExpInsertFail rSaved storePre).2 ≠ storePre ∧
      (saveResume envExpInsertFail rSaved storePre).2.resumeExperiences = [] ∧
      storePre.resumeExperiences ≠ [] ∧
      ((saveResume envExpInsertFail rSaved storePre).2.resumes.map fun q => q.name) =
        ["Alice"] := by
  decide

/-- C8 (amended): a persistence failure is surfaced to the caller with an
empty returned identifier, leaving any identifier held by the caller
unchanged; when the initial record upsert is the failing call the store is
left wholly unchanged, though writes made by earlier steps of the same save
remain. -/
theorem claim8_failure_surfaced (env : SaveEnv) (r : Resume) (s : Store) :
    (env.resumesUpsertOk = false →
      saveResume env r s = (("", some StoreError.storeError), s)) ∧
    (∀ e, (saveResume env r s).1.2 = some e → (saveResume env r s).1.1 = "") := by
  constructor
  · intro h
    rcases saveResume_cases env r s with ⟨_, heq⟩ | ⟨s2, hup, heq, hs2⟩ | ⟨e, s2, hup, heq, hs2⟩
    · exact heq
    · rw [h] at hup; cases hup
    · rw [h] at hup; cases hup
  · intro e he
    rcases saveResume_cases env r s with ⟨_, heq⟩ | ⟨s2, hup, heq, hs2⟩ | ⟨e2, s2, hup, heq, hs2⟩
    · rw [heq]
    · rw [heq] at he; cases he
    · rw [heq]

/-- Witness for C8 (amended) at a failing initial upsert. -/
theorem claim8_failure_surfaced_witness :
    saveResume envUpsertFail rSaved storePre = (("", some StoreError.storeError), storePre) ∧
      (saveResume envUpsertFail rSaved storePre).1.1 = "" :=
  ⟨(claim8_failure_surfaced envUpsertFail rSaved storePre).1 (by decide),
    (claim8_failure_surfaced envUpsertFail rSaved storePre).2 StoreError.storeError (by decide)⟩

end ATS
